import Mathlib

/-!
Verification of the Subscriptions Hub backend (`src/main.py`).

The only business logic is the insights summary (`monthly_summary` in
`main.py`): normalize each subscription's billing amount to a monthly
basis, accumulate a grand total and a per-service total keyed by the
normalized (stripped, lowercased) service name, and report duplicate
names.  We embed the records that endpoint consumes, the computation
itself, and the pydantic validation of the creation endpoint
(`SubscriptionIn`), and prove the spec's properties about them.

Amounts are modelled as exact rationals; `round(x, 2)` is modelled as
round-half-to-even at two decimal places, Python's rounding policy.
Dictionaries are modelled as association lists in insertion order,
matching CPython dict semantics: updating an existing key keeps its
position, a new key is appended at the end.  Python's `str.strip` and
`str.lower` are modelled on the character list of the string.
-/

namespace SubscriptionsHub

/-- Python `str.strip()`: drop whitespace characters from both ends. -/
def pyStrip (s : String) : String :=
  ⟨((s.data.dropWhile Char.isWhitespace).reverse.dropWhile Char.isWhitespace).reverse⟩

/-- Python `str.lower()`: lowercase every character. -/
def pyLower (s : String) : String :=
  ⟨s.data.map Char.toLower⟩

/-- A stored subscription document as consumed by `monthly_summary`
(`src/main.py` lines 108-131).  Only the fields the summary reads are
embedded; `none` models a missing key (`d.get(...)` with a default). -/
structure Doc where
  name : Option String
  amount : Option ℚ
  billing_cycle : Option String
deriving DecidableEq, Repr

/-- Embeds `float(d.get("amount", 0))` (`main.py` line 109): a missing amount
defaults to `0`. -/
def docAmount (d : Doc) : ℚ := d.amount.getD 0

/-- Embeds `d.get("billing_cycle", "monthly")` (`main.py` line 110): a missing
cycle defaults to `"monthly"`. -/
def docCycle (d : Doc) : String := d.billing_cycle.getD "monthly"

/-- Embeds `(d.get("name") or "").strip().lower()` (`main.py` lines 111 and
127): a missing name becomes the empty string, then the name is
stripped of surrounding whitespace and lowercased. -/
def docName (d : Doc) : String := pyLower (pyStrip (d.name.getD ""))

/-- The monthly-cost normalization (`main.py` lines 115-120): annual
amounts are divided by 12, weekly amounts are multiplied by 52/12, and
any other cycle (including `"monthly"` and unrecognized strings) passes
the amount through unchanged. -/
def normalizeMonthly (amount : ℚ) (cycle : String) : ℚ :=
  if cycle = "annual" then amount / 12
  else if cycle = "weekly" then amount * 52 / 12
  else amount

/-- The monthly-normalized cost of one document. -/
def docMonthly (d : Doc) : ℚ := normalizeMonthly (docAmount d) (docCycle d)

/-- Embeds `by_service.setdefault(name, 0); by_service[name] += monthly`
(`main.py` lines 122-123) on an insertion-ordered dictionary: add `v`
to the entry for `k`, appending a fresh entry at the end when `k` is
absent. -/
def addToService (m : List (String × ℚ)) (k : String) (v : ℚ) : List (String × ℚ) :=
  match m with
  | [] => [(k, v)]
  | (k₀, v₀) :: rest =>
      if k₀ = k then (k₀, v₀ + v) :: rest else (k₀, v₀) :: addToService rest k v

/-- One iteration of the aggregation loop (`main.py` lines 108-123):
skip documents whose normalized name is empty, otherwise add the
monthly cost to the running total and to the per-service map. -/
def sumStep (acc : ℚ × List (String × ℚ)) (d : Doc) : ℚ × List (String × ℚ) :=
  if docName d = "" then acc
  else (acc.1 + docMonthly d, addToService acc.2 (docName d) (docMonthly d))

/-- The pre-rounding grand total accumulated by the loop. -/
def rawTotal (docs : List Doc) : ℚ := (docs.foldl sumStep (0, [])).1

/-- The pre-rounding per-service map accumulated by the loop. -/
def rawServices (docs : List Doc) : List (String × ℚ) := (docs.foldl sumStep (0, [])).2

/-- Embeds `name_counts[n] = name_counts.get(n, 0) + 1` (`main.py` line 130)
on an insertion-ordered dictionary. -/
def incr (m : List (String × ℕ)) (k : String) : List (String × ℕ) :=
  match m with
  | [] => [(k, 1)]
  | (k₀, v₀) :: rest =>
      if k₀ = k then (k₀, v₀ + 1) :: rest else (k₀, v₀) :: incr rest k

/-- One iteration of the duplicate-counting loop (`main.py` lines
126-130): skip empty normalized names, otherwise count. -/
def countStep (m : List (String × ℕ)) (d : Doc) : List (String × ℕ) :=
  if docName d = "" then m else incr m (docName d)

/-- The `name_counts` dictionary after the second loop. -/
def nameCounts (docs : List Doc) : List (String × ℕ) := docs.foldl countStep []

/-- Embeds `[name for name, c in name_counts.items() if c > 1]` (`main.py`
line 131). -/
def duplicatesOf (docs : List Doc) : List String :=
  ((nameCounts docs).filter (fun p => 1 < p.2)).map Prod.fst

/-- Round a rational to the nearest integer, ties to even: the rounding
of Python's built-in `round`.  `q.num / q.den` is the floor of `q`, and
`2 * (q.num - f * q.den)` compares the fractional part against `1/2`
scaled by the (positive) denominator. -/
def roundHalfEven (q : ℚ) : ℤ :=
  let f := q.num / q.den
  let r2 := 2 * (q.num - f * q.den)
  if r2 < (q.den : ℤ) then f
  else if (q.den : ℤ) < r2 then f + 1
  else if f % 2 = 0 then f else f + 1

/-- Embeds `round(x, 2)`: round to two decimal places. -/
def round2 (q : ℚ) : ℚ := (roundHalfEven (q * 100) : ℚ) / 100

/-- The response body of `GET /api/insights/summary` (`main.py` lines
132-136).  `services` keeps the dictionary's insertion order. -/
structure Summary where
  total_monthly : ℚ
  services : List (String × ℚ)
  duplicates : List String
deriving DecidableEq, Repr

/-- The insights computation (`main.py` lines 100-136) as a pure
function of the fetched documents: rounding is applied to the grand
total and to each per-service total only when building the response. -/
def monthly_summary (docs : List Doc) : Summary :=
  { total_monthly := round2 (rawTotal docs)
  , services := (rawServices docs).map (fun p => (p.1, round2 p.2))
  , duplicates := duplicatesOf docs }

/-- The request body of `POST /api/subscriptions` restricted to the
validated fields (`main.py` lines 21-30, class `SubscriptionIn`). -/
structure SubscriptionIn where
  name : String
  amount : ℚ
  currency : String
  billing_cycle : String
deriving DecidableEq, Repr

/-- The field-level constraints pydantic enforces on `SubscriptionIn`
(`main.py` lines 21-30): `amount` must satisfy `ge=0` and `currency`
must have `min_length=3, max_length=3`.  `billing_cycle` is a plain
`str` field and carries no constraint.  Returns the names of the
failing fields. -/
def fieldErrors (p : SubscriptionIn) : List String :=
  (if p.amount < 0 then ["amount"] else []) ++
  (if p.currency.length ≠ 3 then ["currency"] else [])

/-- Outcome of `POST /api/subscriptions`: either a framework-level 422
validation error with the failing fields, or the record is passed to
the store (`main.py` lines 72-79). -/
inductive CreateResult where
  | validationError (fields : List String)
  | created
deriving DecidableEq, Repr

/-- Embeds `create_subscription` up to the store write: pydantic validates the
payload before the handler body runs; a valid payload reaches
`create_document`. -/
def create_subscription (p : SubscriptionIn) : CreateResult :=
  if fieldErrors p = [] then .created else .validationError (fieldErrors p)

/-- Number of documents whose normalized name is `n`. -/
def countName (docs : List Doc) (n : String) : ℕ :=
  match docs with
  | [] => 0
  | d :: ds => (if docName d = n then 1 else 0) + countName ds n

/-- Sum of the monthly costs of the documents with a non-empty
normalized name. -/
def sumMonthly (docs : List Doc) : ℚ :=
  match docs with
  | [] => 0
  | d :: ds => (if docName d = "" then 0 else docMonthly d) + sumMonthly ds

/-- Lookup in an insertion-ordered counting dictionary, `0` when the
key is absent (`name_counts.get(n, 0)`). -/
def getCount (m : List (String × ℕ)) (k : String) : ℕ :=
  match m with
  | [] => 0
  | (k₀, v₀) :: rest => if k₀ = k then v₀ else getCount rest k

/-- The values of an association list, summed. -/
def sumValues (m : List (String × ℚ)) : ℚ := (m.map Prod.snd).sum

/-- Looking a key up after `incr` gives one more for the incremented
key and leaves every other key unchanged. -/
theorem getCount_incr (m : List (String × ℕ)) (k n : String) :
    getCount (incr m k) n = if n = k then getCount m n + 1 else getCount m n := by
  induction m with
  | nil =>
      by_cases h : n = k
      · subst h; simp [incr, getCount]
      · simp [incr, getCount, h, Ne.symm h]
  | cons p rest ih =>
      obtain ⟨k₀, v₀⟩ := p
      by_cases hk : k₀ = k
      · subst hk
        by_cases hn : k₀ = n
        · subst hn; simp [incr, getCount]
        · simp [incr, getCount, hn, Ne.symm hn]
      · by_cases hn : k₀ = n
        · subst hn; simp [incr, getCount, hk, Ne.symm hk]
        · simp [incr, getCount, hk, hn, ih]

/-- The keys after `incr` are the old keys plus the incremented key. -/
theorem mem_keys_incr (m : List (String × ℕ)) (k n : String) :
    n ∈ (incr m k).map Prod.fst ↔ n ∈ m.map Prod.fst ∨ n = k := by
  induction m with
  | nil => simp [incr]
  | cons p rest ih =>
      obtain ⟨k₀, v₀⟩ := p
      by_cases hk : k₀ = k
      · subst hk; simp [incr]; tauto
      · simp [incr, hk, ih]; tauto

/-- The function `incr` keeps the keys of an insertion-ordered dictionary distinct. -/
theorem nodup_keys_incr (m : List (String × ℕ)) (k : String)
    (h : (m.map Prod.fst).Nodup) : ((incr m k).map Prod.fst).Nodup := by
  induction m with
  | nil => simp [incr]
  | cons p rest ih =>
      obtain ⟨k₀, v₀⟩ := p
      simp only [List.map_cons, List.nodup_cons] at h
      by_cases hk : k₀ = k
      · subst hk; simpa [incr] using h
      · simp only [incr, if_neg hk, List.map_cons, List.nodup_cons]
        refine ⟨?_, ih h.2⟩
        rw [mem_keys_incr]
        push_neg
        exact ⟨h.1, hk⟩

/-- Any property of entries stable under bumping a count and holding
for fresh `(k, 1)` entries is preserved by `incr`. -/
theorem incr_preserves (m : List (String × ℕ)) (k : String) (P : String × ℕ → Prop)
    (hm : ∀ p ∈ m, P p) (hnew : P (k, 1))
    (hbump : ∀ k₀ v₀, P (k₀, v₀) → P (k₀, v₀ + 1)) :
    ∀ p ∈ incr m k, P p := by
  induction m with
  | nil => simpa [incr] using hnew
  | cons q rest ih =>
      obtain ⟨k₀, v₀⟩ := q
      by_cases hk : k₀ = k
      · subst hk
        intro p hp
        simp only [incr, if_pos rfl] at hp
        rcases List.mem_cons.mp hp with h | h
        · exact h ▸ hbump _ _ (hm (k₀, v₀) (by simp))
        · exact hm p (List.mem_cons_of_mem _ h)
      · intro p hp
        simp only [incr, if_neg hk] at hp
        rcases List.mem_cons.mp hp with h | h
        · exact h ▸ hm (k₀, v₀) (by simp)
        · exact ih (fun p hp => hm p (List.mem_cons_of_mem _ hp)) p h

/-- A key of an insertion-ordered dictionary with distinct keys looks
up to the value stored with it. -/
theorem getCount_eq_of_mem (m : List (String × ℕ))
    (h : (m.map Prod.fst).Nodup) (p : String × ℕ) (hp : p ∈ m) :
    getCount m p.1 = p.2 := by
  induction m with
  | nil => cases hp
  | cons q rest ih =>
      obtain ⟨k₀, v₀⟩ := q
      simp only [List.map_cons, List.nodup_cons] at h
      rcases List.mem_cons.mp hp with h' | h'
      · subst h'; simp [getCount]
      · have hne : k₀ ≠ p.1 := by
          intro hh
          exact h.1 (hh ▸ List.mem_map_of_mem Prod.fst h')
        simp [getCount, hne, ih h.2 h']

/-- A key that is absent looks up to zero. -/
theorem getCount_eq_zero_of_not_mem (m : List (String × ℕ)) (n : String)
    (h : n ∉ m.map Prod.fst) : getCount m n = 0 := by
  induction m with
  | nil => rfl
  | cons q rest ih =>
      obtain ⟨k₀, v₀⟩ := q
      simp only [List.map_cons, List.mem_cons] at h
      push_neg at h
      simp only [getCount]
      rw [if_neg (fun hh => h.1 hh.symm)]
      exact ih h.2

/-- Folding the counting loop adds, for each non-empty name `n`, the
number of documents normalizing to `n`. -/
theorem getCount_countStep_foldl (docs : List Doc) (m : List (String × ℕ))
    (n : String) (hn : n ≠ "") :
    getCount (docs.foldl countStep m) n = getCount m n + countName docs n := by
  induction docs generalizing m with
  | nil => simp [countName]
  | cons d ds ih =>
      simp only [List.foldl_cons, countName]
      by_cases hd : docName d = ""
      · simp only [countStep, if_pos hd]
        rw [ih m]
        have hdn : (if docName d = n then 1 else 0) = 0 := by
          rw [if_neg]
          intro hh
          exact hn (hh.symm.trans hd)
        rw [hdn]
        omega
      · simp only [countStep, if_neg hd]
        rw [ih (incr m (docName d)), getCount_incr]
        by_cases hdn : n = docName d
        · rw [if_pos hdn, if_pos hdn.symm]
          omega
        · rw [if_neg hdn, if_neg (fun hh => hdn hh.symm)]
          omega

/-- A name is a key of the counting fold exactly when it was a key of
the initial dictionary or is the non-empty normalized name of some
document. -/
theorem mem_keys_countStep_foldl (docs : List Doc) (m : List (String × ℕ)) (n : String) :
    n ∈ (docs.foldl countStep m).map Prod.fst ↔
      n ∈ m.map Prod.fst ∨ ∃ d ∈ docs, docName d = n ∧ docName d ≠ "" := by
  induction docs generalizing m with
  | nil => simp
  | cons d ds ih =>
      simp only [List.foldl_cons]
      by_cases hd : docName d = ""
      · simp only [countStep, if_pos hd, ih]
        constructor
        · rintro (h | ⟨d', hd', h1, h2⟩)
          · exact Or.inl h
          · exact Or.inr ⟨d', List.mem_cons_of_mem _ hd', h1, h2⟩
        · rintro (h | ⟨d', hd', h1, h2⟩)
          · exact Or.inl h
          · rcases List.mem_cons.mp hd' with rfl | h'
            · exact absurd hd h2
            · exact Or.inr ⟨d', h', h1, h2⟩
      · simp only [countStep, if_neg hd, ih, mem_keys_incr]
        constructor
        · rintro ((h | h) | ⟨d', hd', h1, h2⟩)
          · exact Or.inl h
          · exact Or.inr ⟨d, List.mem_cons_self d ds, h.symm, hd⟩
          · exact Or.inr ⟨d', List.mem_cons_of_mem _ hd', h1, h2⟩
        · rintro (h | ⟨d', hd', h1, h2⟩)
          · exact Or.inl (Or.inl h)
          · rcases List.mem_cons.mp hd' with rfl | h'
            · exact Or.inl (Or.inr h1.symm)
            · exact Or.inr ⟨d', h', h1, h2⟩

/-- The counting fold keeps keys distinct. -/
theorem nodup_keys_countStep_foldl (docs : List Doc) (m : List (String × ℕ))
    (h : (m.map Prod.fst).Nodup) : ((docs.foldl countStep m).map Prod.fst).Nodup := by
  induction docs generalizing m with
  | nil => simpa
  | cons d ds ih =>
      simp only [List.foldl_cons, countStep]
      by_cases hd : docName d = ""
      · rw [if_pos hd]
        exact ih m h
      · rw [if_neg hd]
        exact ih _ (nodup_keys_incr m _ h)

/-- Entry invariants carried through the counting fold. -/
theorem countStep_foldl_preserves (P : String × ℕ → Prop)
    (hbump : ∀ k v, P (k, v) → P (k, v + 1)) (docs : List Doc) :
    ∀ m : List (String × ℕ), (∀ p ∈ m, P p) →
      (∀ d ∈ docs, docName d ≠ "" → P (docName d, 1)) →
      ∀ p ∈ docs.foldl countStep m, P p := by
  induction docs with
  | nil =>
      intro m hm _
      simpa using hm
  | cons d ds ih =>
      intro m hm hnew
      simp only [List.foldl_cons, countStep]
      by_cases hd : docName d = ""
      · rw [if_pos hd]
        exact ih m hm (fun d' hd' => hnew d' (List.mem_cons_of_mem _ hd'))
      · rw [if_neg hd]
        exact ih _ (incr_preserves m _ P hm (hnew d (List.mem_cons_self d ds) hd) hbump)
          (fun d' hd' => hnew d' (List.mem_cons_of_mem _ hd'))

/-- Every entry of `name_counts` has a non-empty key, a count of at
least one, and a document whose normalized name is its key. -/
theorem nameCounts_entries (docs : List Doc) :
    ∀ p ∈ nameCounts docs, p.1 ≠ "" ∧ 1 ≤ p.2 ∧ ∃ d ∈ docs, docName d = p.1 := by
  refine countStep_foldl_preserves _ ?_ docs [] (by simp) ?_
  · rintro k v ⟨h1, h2, h3⟩
    exact ⟨h1, Nat.le_succ_of_le h2, h3⟩
  · intro d hd hne
    exact ⟨hne, le_refl 1, ⟨d, hd, rfl⟩⟩

/-- The dictionary `name_counts` has distinct keys. -/
theorem nodup_keys_nameCounts (docs : List Doc) :
    ((nameCounts docs).map Prod.fst).Nodup :=
  nodup_keys_countStep_foldl docs [] (by simp)

/-- The dictionary `name_counts` stores exactly the occurrence count of each
non-empty normalized name. -/
theorem getCount_nameCounts (docs : List Doc) (n : String) (hn : n ≠ "") :
    getCount (nameCounts docs) n = countName docs n := by
  have h := getCount_countStep_foldl docs [] n hn
  rw [nameCounts]
  simpa [getCount] using h

/-- Membership in the duplicates list is having an entry counted more
than once. -/
theorem mem_duplicatesOf_iff (docs : List Doc) (n : String) :
    n ∈ duplicatesOf docs ↔ ∃ p ∈ nameCounts docs, p.1 = n ∧ 1 < p.2 := by
  unfold duplicatesOf
  rw [List.mem_map]
  constructor
  · rintro ⟨p, hp, h1⟩
    rw [List.mem_filter] at hp
    exact ⟨p, hp.1, h1, by simpa using hp.2⟩
  · rintro ⟨p, hp, h1, h2⟩
    exact ⟨p, List.mem_filter.mpr ⟨hp, by simpa using h2⟩, h1⟩

/-- The keys after `addToService` are the old keys plus the updated
key. -/
theorem mem_keys_addToService (m : List (String × ℚ)) (k n : String) (v : ℚ) :
    n ∈ (addToService m k v).map Prod.fst ↔ n ∈ m.map Prod.fst ∨ n = k := by
  induction m with
  | nil => simp [addToService]
  | cons p rest ih =>
      obtain ⟨k₀, v₀⟩ := p
      by_cases hk : k₀ = k
      · subst hk
        simp [addToService]
        tauto
      · simp [addToService, hk, ih]
        tauto

/-- A name is a key of the aggregation fold's service map exactly when
it was a key initially or is the non-empty normalized name of some
document. -/
theorem mem_keys_sumStep_foldl (docs : List Doc) (acc : ℚ × List (String × ℚ)) (n : String) :
    n ∈ (docs.foldl sumStep acc).2.map Prod.fst ↔
      n ∈ acc.2.map Prod.fst ∨ ∃ d ∈ docs, docName d = n ∧ docName d ≠ "" := by
  induction docs generalizing acc with
  | nil => simp
  | cons d ds ih =>
      simp only [List.foldl_cons]
      by_cases hd : docName d = ""
      · simp only [sumStep, if_pos hd, ih]
        constructor
        · rintro (h | ⟨d', hd', h1, h2⟩)
          · exact Or.inl h
          · exact Or.inr ⟨d', List.mem_cons_of_mem _ hd', h1, h2⟩
        · rintro (h | ⟨d', hd', h1, h2⟩)
          · exact Or.inl h
          · rcases List.mem_cons.mp hd' with rfl | h'
            · exact absurd hd h2
            · exact Or.inr ⟨d', h', h1, h2⟩
      · simp only [sumStep, if_neg hd, ih, mem_keys_addToService]
        constructor
        · rintro ((h | h) | ⟨d', hd', h1, h2⟩)
          · exact Or.inl h
          · exact Or.inr ⟨d, List.mem_cons_self d ds, h.symm, hd⟩
          · exact Or.inr ⟨d', List.mem_cons_of_mem _ hd', h1, h2⟩
        · rintro (h | ⟨d', hd', h1, h2⟩)
          · exact Or.inl (Or.inl h)
          · rcases List.mem_cons.mp hd' with rfl | h'
            · exact Or.inl (Or.inr h1.symm)
            · exact Or.inr ⟨d', h', h1, h2⟩

/-- C1: the monthly-normalized cost of a processed record is
`amount / 12` for an annual cycle, `amount * 52 / 12` for a weekly
cycle, and the amount unchanged for `"monthly"` or any unrecognized
cycle. -/
theorem c1_monthly_normalization (d : Doc) :
    (docCycle d = "annual" → docMonthly d = docAmount d / 12) ∧
    (docCycle d = "weekly" → docMonthly d = docAmount d * 52 / 12) ∧
    (docCycle d ≠ "annual" → docCycle d ≠ "weekly" → docMonthly d = docAmount d) := by
  refine ⟨fun h => ?_, fun h => ?_, fun h₁ h₂ => ?_⟩
  · simp [docMonthly, normalizeMonthly, h]
  · simp [docMonthly, normalizeMonthly, h]
  · simp [docMonthly, normalizeMonthly, h₁, h₂]

/-- Witness for C1 at concrete annual, weekly and unrecognized-cycle
records. -/
theorem c1_monthly_normalization_witness :
    docMonthly ⟨some "a", some 24, some "annual"⟩ =
      docAmount ⟨some "a", some 24, some "annual"⟩ / 12 ∧
    docMonthly ⟨some "b", some 12, some "weekly"⟩ =
      docAmount ⟨some "b", some 12, some "weekly"⟩ * 52 / 12 ∧
    docMonthly ⟨some "c", some 7, some "daily"⟩ =
      docAmount ⟨some "c", some 7, some "daily"⟩ :=
  ⟨(c1_monthly_normalization _).1 rfl,
   (c1_monthly_normalization _).2.1 rfl,
   (c1_monthly_normalization _).2.2 (by decide) (by decide)⟩

/-- C7: on an empty record set the summary is a zero total, an empty
service mapping and an empty duplicates list. -/
theorem c7_empty_input :
    monthly_summary [] = { total_monthly := 0, services := [], duplicates := [] } := by
  have h0 : rawTotal [] = 0 := rfl
  simp only [monthly_summary, h0]
  norm_num [round2, roundHalfEven, rawServices, duplicatesOf, nameCounts]

/-- C8: for a fixed billing cycle the pre-rounding monthly
normalization is linear in the amount — doubling the amount doubles the
monthly cost. -/
theorem c8_linearity (a : ℚ) (c : String) :
    normalizeMonthly (2 * a) c = 2 * normalizeMonthly a c := by
  unfold normalizeMonthly
  split_ifs <;> ring

/-- C6 fails on the code: `SubscriptionIn.billing_cycle` is a plain
string field with no constraint, so a payload whose cycle is outside
`{monthly, annual, weekly}` is accepted and reaches the store.  A
concrete counterexample: cycle `"daily"` with a valid amount and
currency is created. -/
theorem c6_validation_counterexample :
    ¬ (∀ p : SubscriptionIn,
        (p.amount < 0 ∨ p.currency.length ≠ 3 ∨
          p.billing_cycle ∉ (["monthly", "annual", "weekly"] : List String)) →
        create_subscription p ≠ CreateResult.created) := by
  intro h
  have herr : fieldErrors ⟨"Disney", 10, "USD", "daily"⟩ = [] := by
    unfold fieldErrors
    rw [if_neg (by norm_num), if_neg (by decide)]
    rfl
  exact h ⟨"Disney", 10, "USD", "daily"⟩ (Or.inr (Or.inr (by decide)))
    (by unfold create_subscription; rw [herr]; simp)

/-- C6 amended: a negative amount or a wrong-length currency code is
rejected with field-level detail before the record reaches the store,
while `billing_cycle` carries no constraint — a payload is created
exactly when its amount is non-negative and its currency has length
three. -/
theorem c6_validation_amended (p : SubscriptionIn) :
    (create_subscription p = CreateResult.created ↔
      0 ≤ p.amount ∧ p.currency.length = 3) ∧
    (p.amount < 0 → "amount" ∈ fieldErrors p ∧
      create_subscription p = CreateResult.validationError (fieldErrors p)) ∧
    (p.currency.length ≠ 3 → "currency" ∈ fieldErrors p ∧
      create_subscription p = CreateResult.validationError (fieldErrors p)) := by
  rcases lt_or_le p.amount 0 with h₁ | h₁ <;>
    rcases eq_or_ne p.currency.length 3 with h₂ | h₂
  · simp [create_subscription, fieldErrors, h₁, h₂, not_le.mpr h₁]
  · simp [create_subscription, fieldErrors, h₁, h₂, not_le.mpr h₁]
  · simp [create_subscription, fieldErrors, h₁, h₂, not_lt.mpr h₁]
  · simp [create_subscription, fieldErrors, h₁, h₂, not_lt.mpr h₁]

/-- Witness for C6 amended: a negative amount is rejected with the
`amount` field reported, a two-letter currency is rejected with the
`currency` field reported, and a well-formed payload is created. -/
theorem c6_validation_amended_witness :
    ("amount" ∈ fieldErrors ⟨"A", -1, "USD", "monthly"⟩ ∧
      create_subscription ⟨"A", -1, "USD", "monthly"⟩ =
        CreateResult.validationError (fieldErrors ⟨"A", -1, "USD", "monthly"⟩)) ∧
    ("currency" ∈ fieldErrors ⟨"B", 5, "US", "monthly"⟩ ∧
      create_subscription ⟨"B", 5, "US", "monthly"⟩ =
        CreateResult.validationError (fieldErrors ⟨"B", 5, "US", "monthly"⟩)) ∧
    (create_subscription ⟨"C", 5, "EUR", "weekly"⟩ = CreateResult.created ↔
      0 ≤ (⟨"C", 5, "EUR", "weekly"⟩ : SubscriptionIn).amount ∧
      (⟨"C", 5, "EUR", "weekly"⟩ : SubscriptionIn).currency.length = 3) :=
  ⟨(c6_validation_amended _).2.1 (by norm_num),
   (c6_validation_amended _).2.2 (by decide),
   (c6_validation_amended _).1⟩

/-- C2: the spec's worked scenario — Netflix 15.99 monthly, netflix 8
weekly, Spotify 120 annual — yields netflix 50.66, spotify 10.00, a
grand total of 60.66 and the single duplicate `"netflix"`. -/
theorem c2_scenario :
    monthly_summary
      [ ⟨some "Netflix", some (1599/100), some "monthly"⟩
      , ⟨some "netflix", some 8, some "weekly"⟩
      , ⟨some "Spotify", some 120, some "annual"⟩ ] =
    { total_monthly := 6066/100
    , services := [("netflix", 5066/100), ("spotify", 10)]
    , duplicates := ["netflix"] } := by
  have h₁ : docName ⟨some "Netflix", some (1599/100), some "monthly"⟩ = "netflix" := by
    decide
  have h₂ : docName ⟨some "netflix", some 8, some "weekly"⟩ = "netflix" := by decide
  have h₃ : docName ⟨some "Spotify", some 120, some "annual"⟩ = "spotify" := by decide
  have m₁ : docMonthly ⟨some "Netflix", some (1599/100), some "monthly"⟩ = 1599/100 := by
    simp [docMonthly, docAmount, docCycle, normalizeMonthly]
  have m₂ : docMonthly ⟨some "netflix", some 8, some "weekly"⟩ = 104/3 := by
    simp [docMonthly, docAmount, docCycle, normalizeMonthly]
    norm_num
  have m₃ : docMonthly ⟨some "Spotify", some 120, some "annual"⟩ = 10 := by
    simp [docMonthly, docAmount, docCycle, normalizeMonthly]
    norm_num
  have hserv :
      rawServices
        [ ⟨some "Netflix", some (1599/100), some "monthly"⟩
        , ⟨some "netflix", some 8, some "weekly"⟩
        , ⟨some "Spotify", some 120, some "annual"⟩ ] =
      [("netflix", 1599/100 + 104/3), ("spotify", 10)] := by
    simp [rawServices, sumStep, addToService, h₁, h₂, h₃, m₁, m₂, m₃]
  have htot :
      rawTotal
        [ ⟨some "Netflix", some (1599/100), some "monthly"⟩
        , ⟨some "netflix", some 8, some "weekly"⟩
        , ⟨some "Spotify", some 120, some "annual"⟩ ] =
      18197/300 := by
    simp [rawTotal, sumStep, h₁, h₂, h₃, m₁, m₂, m₃]
    norm_num
  have hdup :
      duplicatesOf
        [ ⟨some "Netflix", some (1599/100), some "monthly"⟩
        , ⟨some "netflix", some 8, some "weekly"⟩
        , ⟨some "Spotify", some 120, some "annual"⟩ ] =
      ["netflix"] := by
    simp [duplicatesOf, nameCounts, countStep, incr, h₁, h₂, h₃]
  simp only [monthly_summary, hserv, htot, hdup, List.map_cons, List.map_nil]
  norm_num [round2, roundHalfEven, Summary.mk.injEq]

/-- C3: a non-empty normalized name is in the duplicates list exactly
when it is the normalized name of at least two records; the list has no
repeats and contains only non-empty normalized names of records. -/
theorem c3_duplicate_detection (docs : List Doc) (n : String) (hn : n ≠ "") :
    (n ∈ (monthly_summary docs).duplicates ↔ 2 ≤ countName docs n) ∧
    (monthly_summary docs).duplicates.Nodup ∧
    (∀ m ∈ (monthly_summary docs).duplicates, m ≠ "" ∧ ∃ d ∈ docs, docName d = m) := by
  have hdup : (monthly_summary docs).duplicates = duplicatesOf docs := rfl
  rw [hdup]
  refine ⟨⟨?_, ?_⟩, ?_, ?_⟩
  · intro h
    obtain ⟨p, hp, h1, h2⟩ := (mem_duplicatesOf_iff docs n).mp h
    have hv := getCount_eq_of_mem _ (nodup_keys_nameCounts docs) p hp
    rw [h1] at hv
    rw [← getCount_nameCounts docs n hn, hv]
    omega
  · intro h
    have hg := getCount_nameCounts docs n hn
    have hpos : getCount (nameCounts docs) n ≠ 0 := by omega
    have hmem : n ∈ (nameCounts docs).map Prod.fst := by
      by_contra hc
      exact hpos (getCount_eq_zero_of_not_mem _ n hc)
    obtain ⟨p, hp, h1⟩ := List.mem_map.mp hmem
    refine (mem_duplicatesOf_iff docs n).mpr ⟨p, hp, h1, ?_⟩
    have hv := getCount_eq_of_mem _ (nodup_keys_nameCounts docs) p hp
    rw [h1] at hv
    omega
  · have hsub : List.Sublist (duplicatesOf docs) ((nameCounts docs).map Prod.fst) :=
      (List.filter_sublist _).map Prod.fst
    exact (nodup_keys_nameCounts docs).sublist hsub
  · intro m hm
    obtain ⟨p, hp, h1, _⟩ := (mem_duplicatesOf_iff docs m).mp hm
    obtain ⟨hne, _, hex⟩ := nameCounts_entries docs p hp
    exact ⟨h1 ▸ hne, h1 ▸ hex⟩

/-- Witness for C3 on records named `"A"`, `" a"` and `"b"` with the
duplicated normalized name `"a"`. -/
theorem c3_duplicate_detection_witness :
    (("a" ∈ (monthly_summary
        [⟨some "A", none, none⟩, ⟨some " a", none, none⟩, ⟨some "b", none, none⟩]).duplicates ↔
      2 ≤ countName
        [⟨some "A", none, none⟩, ⟨some " a", none, none⟩, ⟨some "b", none, none⟩] "a") ∧
    (monthly_summary
        [⟨some "A", none, none⟩, ⟨some " a", none, none⟩, ⟨some "b", none, none⟩]).duplicates.Nodup ∧
    (∀ m ∈ (monthly_summary
        [⟨some "A", none, none⟩, ⟨some " a", none, none⟩, ⟨some "b", none, none⟩]).duplicates,
      m ≠ "" ∧ ∃ d ∈ [⟨some "A", none, none⟩, ⟨some " a", none, none⟩,
        (⟨some "b", none, none⟩ : Doc)], docName d = m)) :=
  c3_duplicate_detection
    [⟨some "A", none, none⟩, ⟨some " a", none, none⟩, ⟨some "b", none, none⟩] "a" (by decide)

/-- C9: every name in the duplicates list is also a key of the
services mapping — both passes admit exactly the records with a
non-empty normalized name. -/
theorem c9_duplicates_have_services (docs : List Doc) (n : String)
    (h : n ∈ (monthly_summary docs).duplicates) :
    n ∈ (monthly_summary docs).services.map Prod.fst := by
  obtain ⟨p, hp, h1, _⟩ := (mem_duplicatesOf_iff docs n).mp h
  obtain ⟨hne, _, d, hd, hdn⟩ := nameCounts_entries docs p hp
  have hkeys : (monthly_summary docs).services.map Prod.fst =
      (rawServices docs).map Prod.fst := by
    simp only [monthly_summary, List.map_map]
    rfl
  rw [hkeys, rawServices, mem_keys_sumStep_foldl docs (0, []) n]
  exact Or.inr ⟨d, hd, hdn.trans h1, by rw [hdn.trans h1]; exact h1 ▸ hne⟩

/-- Witness for C9: the duplicated name `"a"` carries a service
entry. -/
theorem c9_duplicates_have_services_witness :
    "a" ∈ (monthly_summary
      [⟨some "A", some 3, none⟩, ⟨some "a ", some 4, none⟩]).services.map Prod.fst :=
  c9_duplicates_have_services
    [⟨some "A", some 3, none⟩, ⟨some "a ", some 4, none⟩] "a" (by decide)

/-- The running total component of the aggregation fold is the sum of
the monthly costs of the non-empty-name documents. -/
theorem fst_sumStep_foldl (docs : List Doc) (acc : ℚ × List (String × ℚ)) :
    (docs.foldl sumStep acc).1 = acc.1 + sumMonthly docs := by
  induction docs generalizing acc with
  | nil => simp [sumMonthly]
  | cons d ds ih =>
      simp only [List.foldl_cons, sumMonthly]
      by_cases hd : docName d = ""
      · rw [if_pos hd]
        simp only [sumStep, if_pos hd]
        rw [ih]
        ring
      · rw [if_neg hd]
        simp only [sumStep, if_neg hd]
        rw [ih]
        dsimp only
        ring

/-- The sum `sumMonthly` distributes over list append. -/
theorem sumMonthly_append (l r : List Doc) :
    sumMonthly (l ++ r) = sumMonthly l + sumMonthly r := by
  induction l with
  | nil => simp [sumMonthly]
  | cons d ds ih =>
      simp only [List.cons_append, sumMonthly, List.append_eq, ih]
      ring

/-- C4: a record whose normalized name is empty contributes nothing —
dropping it anywhere in the record list leaves the whole summary
unchanged. -/
theorem c4_empty_name_excluded (l r : List Doc) (d : Doc) (h : docName d = "") :
    monthly_summary (l ++ d :: r) = monthly_summary (l ++ r) := by
  have hsum : ∀ acc : ℚ × List (String × ℚ),
      (l ++ d :: r).foldl sumStep acc = (l ++ r).foldl sumStep acc := by
    intro acc
    rw [List.foldl_append, List.foldl_append, List.foldl_cons]
    congr 1
    simp [sumStep, h]
  have hcnt : ∀ m : List (String × ℕ),
      (l ++ d :: r).foldl countStep m = (l ++ r).foldl countStep m := by
    intro m
    rw [List.foldl_append, List.foldl_append, List.foldl_cons]
    congr 1
    simp [countStep, h]
  simp only [monthly_summary, rawTotal, rawServices, duplicatesOf, nameCounts, hsum, hcnt]

/-- Witness for C4: a whitespace-only name is dropped from the
summary. -/
theorem c4_empty_name_excluded_witness :
    monthly_summary [⟨some "X", some 5, none⟩, ⟨some "   ", some 9, some "weekly"⟩] =
      monthly_summary [⟨some "X", some 5, none⟩] :=
  c4_empty_name_excluded [⟨some "X", some 5, none⟩] []
    ⟨some "   ", some 9, some "weekly"⟩ (by decide)

/-- C10: a missing amount is read as `0` and a missing billing cycle as
`"monthly"`; a record with a non-empty name still contributes its
(possibly zero, pass-through) monthly cost to the total and appears in
the service mapping. -/
theorem c10_missing_fields_defaults (l r : List Doc) (d : Doc) (h : docName d ≠ "") :
    (d.amount = none → docMonthly d = 0) ∧
    (d.billing_cycle = none → docMonthly d = docAmount d) ∧
    rawTotal (l ++ d :: r) = rawTotal (l ++ r) + docMonthly d ∧
    docName d ∈ (monthly_summary (l ++ d :: r)).services.map Prod.fst := by
  refine ⟨fun ha => ?_, fun hc => ?_, ?_, ?_⟩
  · simp only [docMonthly, docAmount, ha, Option.getD_none, normalizeMonthly]
    split_ifs <;> norm_num
  · simp only [docMonthly, docCycle, hc, Option.getD_none, normalizeMonthly]
    simp
  · rw [rawTotal, rawTotal, fst_sumStep_foldl, fst_sumStep_foldl,
      sumMonthly_append, sumMonthly_append]
    simp only [sumMonthly]
    rw [if_neg h]
    ring
  · have hkeys : (monthly_summary (l ++ d :: r)).services.map Prod.fst =
        (rawServices (l ++ d :: r)).map Prod.fst := by
      simp only [monthly_summary, List.map_map]
      rfl
    rw [hkeys, rawServices, mem_keys_sumStep_foldl]
    exact Or.inr ⟨d, by simp, rfl, h⟩

/-- Witness for C10 at a record with a name but neither amount nor
billing cycle. -/
theorem c10_missing_fields_defaults_witness :
    ((⟨some "Hulu", none, none⟩ : Doc).amount = none →
      docMonthly ⟨some "Hulu", none, none⟩ = 0) ∧
    ((⟨some "Hulu", none, none⟩ : Doc).billing_cycle = none →
      docMonthly ⟨some "Hulu", none, none⟩ = docAmount ⟨some "Hulu", none, none⟩) ∧
    rawTotal [⟨some "Hulu", none, none⟩] =
      rawTotal [] + docMonthly ⟨some "Hulu", none, none⟩ ∧
    docName ⟨some "Hulu", none, none⟩ ∈
      (monthly_summary [⟨some "Hulu", none, none⟩]).services.map Prod.fst :=
  c10_missing_fields_defaults [] [] ⟨some "Hulu", none, none⟩ (by decide)

/-- Round-half-to-even lands within one half of its argument. -/
theorem abs_roundHalfEven_sub (q : ℚ) : |(roundHalfEven q : ℚ) - q| ≤ 1/2 := by
  have hden : (0 : ℚ) < (q.den : ℚ) := by exact_mod_cast q.den_pos
  have hq := Int.floor_add_fract (α := ℚ) q
  have hnum : (q.num : ℚ) = q * (q.den : ℚ) := by
    have h2 := Rat.num_div_den q
    calc (q.num : ℚ) = (q.num : ℚ) / (q.den : ℚ) * (q.den : ℚ) := by field_simp
      _ = q * (q.den : ℚ) := by rw [h2]
  have hfl : q.num / (q.den : ℤ) = ⌊q⌋ := Rat.floor_def.symm
  simp only [roundHalfEven]
  rw [hfl]
  split_ifs with h1 h2 h3
  · have h1' : 2 * (Int.fract q * (q.den : ℚ)) < (q.den : ℚ) := by
      have hc : ((2 * (q.num - ⌊q⌋ * (q.den : ℤ)) : ℤ) : ℚ) < (((q.den : ℤ)) : ℚ) := by
        exact_mod_cast h1
      push_cast at hc
      have hr : (2 : ℚ) * ((q.num : ℚ) - (⌊q⌋ : ℚ) * (q.den : ℚ)) =
          2 * (Int.fract q * (q.den : ℚ)) := by
        rw [hnum]
        linear_combination (-2 * (q.den : ℚ)) * hq
      rw [hr] at hc
      exact hc
    have hm : (2 * Int.fract q) * (q.den : ℚ) < 1 * (q.den : ℚ) := by linarith
    have hfr : 2 * Int.fract q < 1 := lt_of_mul_lt_mul_right hm (le_of_lt hden)
    have heq : ((⌊q⌋ : ℚ)) - q = -(Int.fract q) := by linear_combination hq
    rw [heq, abs_neg, abs_of_nonneg (Int.fract_nonneg q)]
    linarith
  · have h2' : (q.den : ℚ) < 2 * (Int.fract q * (q.den : ℚ)) := by
      have hc : (((q.den : ℤ)) : ℚ) < ((2 * (q.num - ⌊q⌋ * (q.den : ℤ)) : ℤ) : ℚ) := by
        exact_mod_cast h2
      push_cast at hc
      have hr : (2 : ℚ) * ((q.num : ℚ) - (⌊q⌋ : ℚ) * (q.den : ℚ)) =
          2 * (Int.fract q * (q.den : ℚ)) := by
        rw [hnum]
        linear_combination (-2 * (q.den : ℚ)) * hq
      rw [hr] at hc
      exact hc
    have hm : 1 * (q.den : ℚ) < (2 * Int.fract q) * (q.den : ℚ) := by linarith
    have hfr : 1 < 2 * Int.fract q := lt_of_mul_lt_mul_right hm (le_of_lt hden)
    push_cast
    have heq : ((⌊q⌋ : ℚ)) + 1 - q = 1 - Int.fract q := by linear_combination hq
    rw [heq, abs_of_nonneg (by linarith [Int.fract_lt_one q])]
    linarith
  · have hb : 2 * (Int.fract q * (q.den : ℚ)) ≤ (q.den : ℚ) := by
      have hc : ((2 * (q.num - ⌊q⌋ * (q.den : ℤ)) : ℤ) : ℚ) ≤ (((q.den : ℤ)) : ℚ) := by
        exact_mod_cast not_lt.mp h2
      push_cast at hc
      have hr : (2 : ℚ) * ((q.num : ℚ) - (⌊q⌋ : ℚ) * (q.den : ℚ)) =
          2 * (Int.fract q * (q.den : ℚ)) := by
        rw [hnum]
        linear_combination (-2 * (q.den : ℚ)) * hq
      rw [hr] at hc
      exact hc
    have hm : (2 * Int.fract q) * (q.den : ℚ) ≤ 1 * (q.den : ℚ) := by linarith
    have e2 : 2 * Int.fract q ≤ 1 := le_of_mul_le_mul_right hm hden
    have heq : ((⌊q⌋ : ℚ)) - q = -(Int.fract q) := by linear_combination hq
    rw [heq, abs_neg, abs_of_nonneg (Int.fract_nonneg q)]
    linarith
  · have ha : (q.den : ℚ) ≤ 2 * (Int.fract q * (q.den : ℚ)) := by
      have hc : (((q.den : ℤ)) : ℚ) ≤ ((2 * (q.num - ⌊q⌋ * (q.den : ℤ)) : ℤ) : ℚ) := by
        exact_mod_cast not_lt.mp h1
      push_cast at hc
      have hr : (2 : ℚ) * ((q.num : ℚ) - (⌊q⌋ : ℚ) * (q.den : ℚ)) =
          2 * (Int.fract q * (q.den : ℚ)) := by
        rw [hnum]
        linear_combination (-2 * (q.den : ℚ)) * hq
      rw [hr] at hc
      exact hc
    have hm : 1 * (q.den : ℚ) ≤ (2 * Int.fract q) * (q.den : ℚ) := by linarith
    have e1 : 1 ≤ 2 * Int.fract q := le_of_mul_le_mul_right hm hden
    push_cast
    have heq : ((⌊q⌋ : ℚ)) + 1 - q = 1 - Int.fract q := by linear_combination hq
    rw [heq, abs_of_nonneg (by linarith [Int.fract_lt_one q])]
    linarith

/-- Rounding to two decimals moves a value by at most `1/200`. -/
theorem abs_round2_sub (q : ℚ) : |round2 q - q| ≤ 1/200 := by
  have h := abs_roundHalfEven_sub (q * 100)
  simp only [round2]
  rw [show ((roundHalfEven (q * 100) : ℚ)) / 100 - q
      = ((roundHalfEven (q * 100) : ℚ) - q * 100) / 100 from by ring, abs_div,
    show |(100 : ℚ)| = 100 from by norm_num]
  linarith

/-- Rounding zero gives zero: `round(0, 2) = 0`. -/
theorem round2_zero : round2 0 = 0 := by
  norm_num [round2, roundHalfEven]

/-- Splitting an absolute difference of sums. -/
theorem abs_add_sub_le (a b c d : ℚ) : |a + b - (c + d)| ≤ |a - c| + |b - d| := by
  have h : a + b - (c + d) = (a - c) + (b - d) := by ring
  rw [h]
  exact abs_add _ _

/-- The sum `sumValues` over a cons cell. -/
theorem sumValues_cons (x : String × ℚ) (xs : List (String × ℚ)) :
    sumValues (x :: xs) = x.2 + sumValues xs := by
  simp [sumValues]

/-- Adding `v` into the service map raises the value sum by `v`. -/
theorem sumValues_addToService (m : List (String × ℚ)) (k : String) (v : ℚ) :
    sumValues (addToService m k v) = sumValues m + v := by
  induction m with
  | nil => simp [addToService, sumValues]
  | cons p rest ih =>
      obtain ⟨k₀, v₀⟩ := p
      by_cases hk : k₀ = k
      · subst hk
        simp [addToService, sumValues_cons]
        ring
      · simp only [addToService, if_neg hk, sumValues_cons, ih]
        ring

/-- The value sum of the aggregation fold's service map grows by the
same `sumMonthly` as the running total. -/
theorem sumValues_sumStep_foldl (docs : List Doc) (acc : ℚ × List (String × ℚ)) :
    sumValues (docs.foldl sumStep acc).2 = sumValues acc.2 + sumMonthly docs := by
  induction docs generalizing acc with
  | nil => simp [sumMonthly]
  | cons d ds ih =>
      simp only [List.foldl_cons, sumMonthly]
      by_cases hd : docName d = ""
      · rw [if_pos hd]
        simp only [sumStep, if_pos hd]
        rw [ih]
        ring
      · rw [if_neg hd]
        simp only [sumStep, if_neg hd]
        rw [ih]
        dsimp only
        rw [sumValues_addToService]
        ring

/-- Rounding every service total moves the value sum by at most
`1/200` per entry. -/
theorem abs_sumValues_map_round2 (m : List (String × ℚ)) :
    |sumValues (m.map (fun p => (p.1, round2 p.2))) - sumValues m| ≤ (m.length : ℚ) / 200 := by
  induction m with
  | nil => simp [sumValues]
  | cons p rest ih =>
      rw [List.map_cons, sumValues_cons, sumValues_cons, List.length_cons]
      refine le_trans (abs_add_sub_le _ _ _ _) ?_
      have h1 := abs_round2_sub p.2
      push_cast
      linarith

/-- C5: before rounding, the grand total is exactly the sum of the
per-service totals; after the output-boundary rounding, the reported
total and the sum of the reported per-service values agree within
`0.01` times the number of services. -/
theorem c5_total_vs_services (docs : List Doc) :
    rawTotal docs = sumValues (rawServices docs) ∧
    |(monthly_summary docs).total_monthly - sumValues (monthly_summary docs).services| ≤
      ((monthly_summary docs).services.length : ℚ) / 100 := by
  have hpre : rawTotal docs = sumValues (rawServices docs) := by
    rw [rawTotal, rawServices, fst_sumStep_foldl, sumValues_sumStep_foldl]
    simp [sumValues]
  refine ⟨hpre, ?_⟩
  have hms : (monthly_summary docs).total_monthly = round2 (rawTotal docs) := rfl
  have hsv : (monthly_summary docs).services =
      (rawServices docs).map (fun p => (p.1, round2 p.2)) := rfl
  rw [hms, hsv, List.length_map]
  cases hraw : rawServices docs with
  | nil =>
      have hT : rawTotal docs = 0 := by
        rw [hpre, hraw]
        simp [sumValues]
      rw [hT, round2_zero]
      simp [sumValues]
  | cons p rest =>
      have hT : rawTotal docs = sumValues (p :: rest) := by rw [hpre, hraw]
      have hlen : 1 ≤ ((p :: rest).length : ℚ) := by
        rw [List.length_cons]
        push_cast
        linarith [Nat.cast_nonneg (α := ℚ) rest.length]
      have h1 := abs_round2_sub (rawTotal docs)
      have h2 := abs_sumValues_map_round2 (p :: rest)
      have h3 : |rawTotal docs -
          sumValues ((p :: rest).map (fun p => (p.1, round2 p.2)))| ≤
          ((p :: rest).length : ℚ) / 200 := by
        rw [hT, abs_sub_comm]
        exact h2
      have h4 := abs_sub_le (round2 (rawTotal docs)) (rawTotal docs)
        (sumValues ((p :: rest).map (fun p => (p.1, round2 p.2))))
      linarith

end SubscriptionsHub
